import Mathlib

/-!
# Verification of the RFM scoring/segmentation pipeline

Shallow embedding of `app.py`'s `preprocess_data` (metric derivation,
equal-width binning via `pd.cut`, composite RFM score, value segment,
customer segment) and the re-engagement relabeling pass inside
`create_plots`.

Conventions of the embedding:
* A table is a `List` of rows; the pandas `RangeIndex` is the list position.
* `PurchaseDate` is modelled as `Option Int` (a day number): `none` is the
  `NaT` produced by `pd.to_datetime(..., errors='coerce')` on an
  unparseable value.
* `OrderID` is `Option Nat`: `none` is a missing (`NaN`) value, which
  `groupby(...)['OrderID'].count()` does not count.
* Numeric columns are `ℚ`; `pd.cut`'s edge arithmetic (`linspace` plus the
  0.1% adjustments) is exact rational arithmetic.
* A pandas exception is `Option.none`: `astype(int)` raises when the
  column it converts contains a missing value, so the scoring pipeline
  returns `none` exactly in that situation.
-/

/-- One row of `rfm_data.csv`, after the `pd.to_datetime(..., errors='coerce')`
coercion of `PurchaseDate` (so an unparseable date is already `none`). -/
structure RawRow where
  CustomerID : Nat
  OrderID : Option Nat
  PurchaseDate : Option Int
  TransactionAmount : ℚ
deriving Repr, DecidableEq, Inhabited

/-- Minimum of a column, as `x.min()` computes it (over the given values). -/
def colMin : List ℚ → ℚ
  | [] => 0
  | v :: vs => vs.foldl min v

/-- Maximum of a column, as `x.max()` computes it. -/
def colMax : List ℚ → ℚ
  | [] => 0
  | v :: vs => vs.foldl max v

/-- The `j`-th of the `k+1` equally spaced edges `np.linspace(mn, mx, k+1)`
that `pd.cut` lays over the observed range. -/
def binEdge (mn mx : ℚ) (k j : Nat) : ℚ := mn + j * ((mx - mn) / k)

/-- The `j`-th edge after `pd.cut`'s adjustment: with `right=True` the
lowest edge is lowered by 0.1% of the range so the minimum falls inside the
first bin. -/
def cutAdjEdge (mn mx : ℚ) (k j : Nat) : ℚ :=
  if j = 0 then mn - (mx - mn) / 1000 else binEdge mn mx k j

/-- The widening `pd.cut` applies to each end of a zero-width range:
0.1% of `|min|`, or `0.001` when `min = 0`. -/
def cutDelta (mn : ℚ) : ℚ := if mn = 0 then 1/1000 else |mn| / 1000

/-- The bin edges of `pd.cut(x, bins=k)`: `linspace` over `[min, max]` with
the first edge lowered by 0.1% of the range (`right=True`), or, when the
column is constant, `linspace` over the range widened by `cutDelta` on both
sides. -/
def cutEdges (mn mx : ℚ) (k : Nat) : List ℚ :=
  if mn = mx then
    (List.range (k+1)).map
      (fun j => binEdge (mn - cutDelta mn) (mx + cutDelta mn) k j)
  else
    (List.range (k+1)).map (fun j => cutAdjEdge mn mx k j)

/-- Locate `v` among consecutive edge pairs: bin `j` is the left-open
right-closed interval `(edges[j], edges[j+1]]`, as `pd.cut` with the
default `right=True` assigns it. Returns `none` when `v` lies in no bin
(pandas produces a missing value there). -/
def scanBins (v : ℚ) : List ℚ → Option Nat
  | a :: b :: rest =>
    if a < v ∧ v ≤ b then some 0 else (scanBins v (b :: rest)).map (· + 1)
  | _ => none

/-- `pd.cut(column, bins=k)` for one value `v` of a column whose non-missing
values are `vals`: the index (0-based, in ascending value order) of the bin
containing `v`. -/
def cutIdx (vals : List ℚ) (k : Nat) (v : ℚ) : Option Nat :=
  if vals = [] then none
  else scanBins v (cutEdges (colMin vals) (colMax vals) k)

/-- `pd.cut(column, bins=labels.length, labels=labels)` for one value. -/
def cutWith {α : Type} (labels : List α) (vals : List ℚ) (v : ℚ) : Option α :=
  (cutIdx vals labels.length v).bind (fun j => labels.get? j)

/-- `data['Recency']`: whole days between the evaluation date and the row's
purchase date, missing when the date failed to parse (line 19 of `app.py`:
`NaT` subtraction yields `NaT`, whose `.days` is `NaN`). -/
def recencyOf (today : Int) (r : RawRow) : Option Int :=
  r.PurchaseDate.map (fun d => today - d)

/-- `data.groupby('CustomerID')['OrderID'].count()` for customer `c`:
the number of `c`'s rows whose `OrderID` is present (pandas `count` skips
missing values), broadcast back onto each row by the left merge. -/
def frequencyOf (rows : List RawRow) (c : Nat) : Nat :=
  ((rows.filter (fun r => r.CustomerID == c)).filter
    (fun r => r.OrderID.isSome)).length

/-- `data.groupby('CustomerID')['TransactionAmount'].sum()` for customer
`c`, broadcast back onto each row by the left merge. -/
def monetaryOf (rows : List RawRow) (c : Nat) : ℚ :=
  ((rows.filter (fun r => r.CustomerID == c)).map
    (fun r => r.TransactionAmount)).sum

/-- The non-missing values of the `Recency` column (what `pd.cut` takes its
`min`/`max` over). -/
def recencyVals (today : Int) (rows : List RawRow) : List ℚ :=
  rows.filterMap (fun r => (recencyOf today r).map (fun d => (d : ℚ)))

/-- The `Frequency` column (never missing: every row's customer occurs in
the groupby result, so the left merge fills every row). -/
def frequencyVals (rows : List RawRow) : List ℚ :=
  rows.map (fun r => (frequencyOf rows r.CustomerID : ℚ))

/-- The `MonetaryValue` column. -/
def monetaryVals (rows : List RawRow) : List ℚ :=
  rows.map (fun r => monetaryOf rows r.CustomerID)

/-- `recency_scores = [5, 4, 3, 2, 1]` (line 32). -/
def recency_scores : List Nat := [5, 4, 3, 2, 1]

/-- `frequency_scores = [1, 2, 3, 4, 5]` (line 33). -/
def frequency_scores : List Nat := [1, 2, 3, 4, 5]

/-- `monetary_scores = [1, 2, 3, 4, 5]` (line 34). -/
def monetary_scores : List Nat := [1, 2, 3, 4, 5]

/-- `segment_labels = ['Low-Value', 'Mid-Value', 'High-Value']` (line 50). -/
def segment_labels : List String := ["Low-Value", "Mid-Value", "High-Value"]

/-- One row's `RecencyScore` before `astype(int)` (line 37). -/
def recencyScore? (today : Int) (rows : List RawRow) (r : RawRow) :
    Option Nat :=
  (recencyOf today r).bind
    (fun d => cutWith recency_scores (recencyVals today rows) (d : ℚ))

/-- One row's `FrequencyScore` before `astype(int)` (line 38). -/
def frequencyScore? (rows : List RawRow) (r : RawRow) : Option Nat :=
  cutWith frequency_scores (frequencyVals rows)
    (frequencyOf rows r.CustomerID : ℚ)

/-- One row's `MonetaryScore` before `astype(int)` (line 39). -/
def monetaryScore? (rows : List RawRow) (r : RawRow) : Option Nat :=
  cutWith monetary_scores (monetaryVals rows) (monetaryOf rows r.CustomerID)

/-- One row's `RFM_Score` when all three component scores are present
(line 47). -/
def rfmScore? (today : Int) (rows : List RawRow) (r : RawRow) : Option Nat :=
  (recencyScore? today rows r).bind fun a =>
  (frequencyScore? rows r).bind fun b =>
  (monetaryScore? rows r).bind fun c => some (a + b + c)

/-- The `RFM_Score` column's non-missing values. -/
def rfmVals (today : Int) (rows : List RawRow) : List ℚ :=
  rows.filterMap (fun r => (rfmScore? today rows r).map (fun n => (n : ℚ)))

/-- The five sequential masked assignments of lines 54-59: start from the
empty string, then overwrite under each of the five (mutually exclusive)
conditions in source order. -/
def assignSegments (s : Nat) : String :=
  let v0 : String := ""
  let v1 := if 9 ≤ s then "Champions" else v0
  let v2 := if 6 ≤ s ∧ s < 9 then "Potential Loyalists" else v1
  let v3 := if 5 ≤ s ∧ s < 6 then "At Risk Customers" else v2
  let v4 := if 4 ≤ s ∧ s < 5 then "Can't Lose" else v3
  if 3 ≤ s ∧ s < 4 then "Lost" else v4

/-- A fully scored row: the columns `preprocess_data` returns. -/
structure ScoredRow where
  CustomerID : Nat
  OrderID : Option Nat
  PurchaseDate : Option Int
  TransactionAmount : ℚ
  Recency : Option Int
  Frequency : Nat
  MonetaryValue : ℚ
  RecencyScore : Nat
  FrequencyScore : Nat
  MonetaryScore : Nat
  RFM_Score : Nat
  ValueSegment : String
  CustomerSegment : String
deriving Repr, DecidableEq, Inhabited

/-- Score one row in the context of the whole table; `none` when one of the
values `astype(int)` would convert is missing. -/
def scoreRow? (today : Int) (rows : List RawRow) (r : RawRow) :
    Option ScoredRow :=
  (recencyOf today r).bind fun rec =>
  (recencyScore? today rows r).bind fun rs =>
  (frequencyScore? rows r).bind fun fs =>
  (monetaryScore? rows r).bind fun ms =>
  (cutWith segment_labels (rfmVals today rows)
      ((rs + fs + ms : Nat) : ℚ)).bind fun vseg =>
  some
    { CustomerID := r.CustomerID
      OrderID := r.OrderID
      PurchaseDate := r.PurchaseDate
      TransactionAmount := r.TransactionAmount
      Recency := some rec
      Frequency := frequencyOf rows r.CustomerID
      MonetaryValue := monetaryOf rows r.CustomerID
      RecencyScore := rs
      FrequencyScore := fs
      MonetaryScore := ms
      RFM_Score := rs + fs + ms
      ValueSegment := vseg
      CustomerSegment := assignSegments (rs + fs + ms) }

/-- `preprocess_data` on an already-loaded table: add the metric, score and
segment columns. Returns `none` when the computation raises — which happens
exactly when `astype(int)` (lines 42-44) meets a missing score. -/
def preprocess (today : Int) (rows : List RawRow) : Option (List ScoredRow) :=
  if rows.all (fun r => (scoreRow? today rows r).isSome)
  then some (rows.filterMap (scoreRow? today rows))
  else none

/-! ## The re-engagement pass (lines 101-104 of `create_plots`)

`data[data['RFM Customer Segments'] == "Lost"]` selects the Lost rows;
`.sample(frac=0.2, random_state=1)` draws `round(0.2 * N_lost)` of them
without replacement using a fixed-seed pseudo-random generator, and
`data.loc[..., 'RFM Customer Segments'] = 'Potential Loyalists'` overwrites
the segment of exactly the drawn rows.

The seeded generator is a library component (NumPy's); we model its
contract — a deterministic, seed-indexed selection of distinct positions —
with a linear-congruential draw standing in for the Mersenne Twister. -/

/-- One step of a linear congruential generator (stands in for the
fixed-seed NumPy generator behind `random_state=1`). -/
def lcgNext (s : Nat) : Nat := (s * 1103515245 + 12345) % 2147483648

/-- Pair each element with its position, starting at `i` (the default
`RangeIndex` of the data frame). -/
def idxZip {α : Type} : Nat → List α → List (Nat × α)
  | _, [] => []
  | i, a :: l => (i, a) :: idxZip (i+1) l

/-- Draw elements one at a time without replacement: pick a pseudo-random
position in the remaining pool, emit that element, and continue on the pool
with it removed. `fuel` bounds the recursion (the pool shrinks). -/
def sampleFuel : Nat → Nat → List Nat → List Nat
  | 0, _, _ => []
  | fuel+1, s, pool =>
    if pool = [] then []
    else
      let x := pool.getD (lcgNext s % pool.length) 0
      x :: sampleFuel fuel (lcgNext s) (pool.erase x)

/-- A seeded pseudo-random permutation of the pool. -/
def shuffle (seed : Nat) (pool : List Nat) : List Nat :=
  sampleFuel pool.length seed pool

/-- The positions of the rows whose `RFM Customer Segments` is `"Lost"`
(the index of `lost_customers`, line 102). -/
def lostIndices (rows : List ScoredRow) : List Nat :=
  ((idxZip 0 rows).filter (fun p => p.2.CustomerSegment == "Lost")).map
    (fun p => p.1)

/-- `DataFrame.sample(frac=0.2, ...)` draws `round(0.2 * N)` rows; `0.2 * N`
is never a half-integer, so Python's round-half-even agrees with ordinary
rounding of `N / 5`. -/
def sampleCount (N : Nat) : Nat := (round ((N : ℚ) / 5)).toNat

/-- The index of `reactivated_customers` (line 103): a fixed-seed draw of
`sampleCount N_lost` distinct positions from the Lost rows. -/
def reengageChosen (rows : List ScoredRow) : List Nat :=
  (shuffle 1 (lostIndices rows)).take (sampleCount (lostIndices rows).length)

/-- Overwrite `CustomerSegment` with `'Potential Loyalists'` on exactly the
rows whose position (counted from `i`) is among `chosen` (line 104). -/
def relabelFrom (chosen : List Nat) : Nat → List ScoredRow → List ScoredRow
  | _, [] => []
  | i, r :: rs =>
    (if i ∈ chosen then { r with CustomerSegment := "Potential Loyalists" }
     else r) :: relabelFrom chosen (i+1) rs

/-- The whole re-engagement pass (lines 101-104). -/
def reengage (rows : List ScoredRow) : List ScoredRow :=
  relabelFrom (reengageChosen rows) 0 rows

/-- Scoring followed by the re-engagement pass: everything the request
handler computes on the table. -/
def runPipeline (today : Int) (rows : List RawRow) :
    Option (List ScoredRow) :=
  (preprocess today rows).map reengage

/-- The number of rows carrying segment `s` (a `value_counts()` entry). -/
def segCount (s : String) (rows : List ScoredRow) : Nat :=
  rows.countP (fun r => r.CustomerSegment == s)

/-! ## Definitions written from the specification's words

These two follow the spec text rather than the code; each refinement claim
compares one of them with the corresponding definition embedded from the
source. -/

/-- The five-rule priority chain on `RFM_Score` exactly as the spec states
it: first matching rule wins, rows matching none keep an empty segment. -/
def customerSegmentSpec (s : Nat) : String :=
  if 9 ≤ s then "Champions"
  else if 6 ≤ s ∧ s < 9 then "Potential Loyalists"
  else if 5 ≤ s ∧ s < 6 then "At Risk Customers"
  else if 4 ≤ s ∧ s < 5 then "Can't Lose"
  else if 3 ≤ s ∧ s < 4 then "Lost"
  else ""

/-- The binning rule in the claim's words: divide the observed `[min, max]`
into `k` equal-width half-open intervals `[e_j, e_{j+1})`, the last one
closed on the right, and return the index of the interval containing `v`. -/
def specBinLC (vals : List ℚ) (k : Nat) (v : ℚ) : Option Nat :=
  (List.range k).find? (fun j =>
    decide (binEdge (colMin vals) (colMax vals) k j ≤ v) &&
      (decide (v < binEdge (colMin vals) (colMax vals) k (j+1)) ||
        (j == k - 1 &&
          decide (v ≤ binEdge (colMin vals) (colMax vals) k (j+1)))))

/-- The claim's binning rule with the interval index mapped through the
fixed label list. -/
def specCutLC {α : Type} (labels : List α) (vals : List ℚ) (v : ℚ) :
    Option α :=
  (specBinLC vals labels.length v).bind (fun j => labels.get? j)

/-! ## Concrete tables used to instantiate the theorems -/

/-- Four transactions of three customers, evaluated at day 100: recencies
10, 5, 40, 0; frequencies 2, 2, 1, 1; monetary values 80, 80, 10, 100. -/
def tEx : List RawRow :=
  [ { CustomerID := 1, OrderID := some 1, PurchaseDate := some 90,
      TransactionAmount := 50 },
    { CustomerID := 1, OrderID := some 2, PurchaseDate := some 95,
      TransactionAmount := 30 },
    { CustomerID := 2, OrderID := some 3, PurchaseDate := some 60,
      TransactionAmount := 10 },
    { CustomerID := 3, OrderID := some 4, PurchaseDate := some 100,
      TransactionAmount := 100 } ]

/-- Three transactions of one customer, evaluated at day 10: the recency
column is `[0, 2, 10]`, so its bin edges are `[-1/100, 2, 4, 6, 8, 10]` and
the value `2` sits exactly on the first interior edge. -/
def tBoundary : List RawRow :=
  [ { CustomerID := 1, OrderID := some 1, PurchaseDate := some 10,
      TransactionAmount := 1 },
    { CustomerID := 1, OrderID := some 2, PurchaseDate := some 8,
      TransactionAmount := 1 },
    { CustomerID := 1, OrderID := some 3, PurchaseDate := some 0,
      TransactionAmount := 1 } ]

/-- A single-customer, single-transaction table: every metric column is
constant, so all three cuts are degenerate. -/
def tSingle : List RawRow :=
  [ { CustomerID := 7, OrderID := some 1, PurchaseDate := some 3,
      TransactionAmount := 42 } ]

/-- A table whose second row has an unparseable `PurchaseDate` (already
coerced to the missing marker by `errors='coerce'`). -/
def tBad : List RawRow :=
  [ { CustomerID := 1, OrderID := some 1, PurchaseDate := some 90,
      TransactionAmount := 50 },
    { CustomerID := 2, OrderID := some 2, PurchaseDate := none,
      TransactionAmount := 30 } ]

/-- Customer 1 has two rows but only one non-missing `OrderID`. -/
def tOrders : List RawRow :=
  [ { CustomerID := 1, OrderID := some 1, PurchaseDate := some 90,
      TransactionAmount := 50 },
    { CustomerID := 1, OrderID := none, PurchaseDate := some 95,
      TransactionAmount := 30 },
    { CustomerID := 2, OrderID := some 3, PurchaseDate := some 60,
      TransactionAmount := 10 } ]

/-- A scored row of segment `"Lost"` (RFM score 3). -/
def mkLost (c : Nat) : ScoredRow :=
  { CustomerID := c, OrderID := some c, PurchaseDate := some 0,
    TransactionAmount := 1, Recency := some 1, Frequency := 1,
    MonetaryValue := 1, RecencyScore := 1, FrequencyScore := 1,
    MonetaryScore := 1, RFM_Score := 3, ValueSegment := "Low-Value",
    CustomerSegment := "Lost" }

/-- A scored row of segment `"Champions"` (RFM score 15). -/
def mkChampion (c : Nat) : ScoredRow :=
  { mkLost c with
    RFM_Score := 15
    ValueSegment := "High-Value"
    CustomerSegment := "Champions" }

/-- Ten `"Lost"` rows followed by three `"Champions"` rows: the spec's
concrete re-engagement scenario. -/
def tSeg : List ScoredRow :=
  (List.range 10).map mkLost ++ (List.range 3).map (fun c => mkChampion (c + 100))

/-- The scored table `preprocess 100 tEx` produces. -/
def tExOut : List ScoredRow :=
  [ { CustomerID := 1, OrderID := some 1, PurchaseDate := some 90,
      TransactionAmount := 50, Recency := some 10, Frequency := 2,
      MonetaryValue := 80, RecencyScore := 4, FrequencyScore := 5,
      MonetaryScore := 4, RFM_Score := 13, ValueSegment := "High-Value",
      CustomerSegment := "Champions" },
    { CustomerID := 1, OrderID := some 2, PurchaseDate := some 95,
      TransactionAmount := 30, Recency := some 5, Frequency := 2,
      MonetaryValue := 80, RecencyScore := 5, FrequencyScore := 5,
      MonetaryScore := 4, RFM_Score := 14, ValueSegment := "High-Value",
      CustomerSegment := "Champions" },
    { CustomerID := 2, OrderID := some 3, PurchaseDate := some 60,
      TransactionAmount := 10, Recency := some 40, Frequency := 1,
      MonetaryValue := 10, RecencyScore := 1, FrequencyScore := 1,
      MonetaryScore := 1, RFM_Score := 3, ValueSegment := "Low-Value",
      CustomerSegment := "Lost" },
    { CustomerID := 3, OrderID := some 4, PurchaseDate := some 100,
      TransactionAmount := 100, Recency := some 0, Frequency := 1,
      MonetaryValue := 100, RecencyScore := 5, FrequencyScore := 1,
      MonetaryScore := 5, RFM_Score := 11, ValueSegment := "High-Value",
      CustomerSegment := "Champions" } ]

/-- The scored table `preprocess 10 tBoundary` produces: the middle row's
recency 2 sits on the edge between the first two bins and is assigned the
lower bin (score 5, not 4). -/
def tBoundaryOut : List ScoredRow :=
  [ { CustomerID := 1, OrderID := some 1, PurchaseDate := some 10,
      TransactionAmount := 1, Recency := some 0, Frequency := 3,
      MonetaryValue := 3, RecencyScore := 5, FrequencyScore := 3,
      MonetaryScore := 3, RFM_Score := 11, ValueSegment := "High-Value",
      CustomerSegment := "Champions" },
    { CustomerID := 1, OrderID := some 2, PurchaseDate := some 8,
      TransactionAmount := 1, Recency := some 2, Frequency := 3,
      MonetaryValue := 3, RecencyScore := 5, FrequencyScore := 3,
      MonetaryScore := 3, RFM_Score := 11, ValueSegment := "High-Value",
      CustomerSegment := "Champions" },
    { CustomerID := 1, OrderID := some 3, PurchaseDate := some 0,
      TransactionAmount := 1, Recency := some 10, Frequency := 3,
      MonetaryValue := 3, RecencyScore := 1, FrequencyScore := 3,
      MonetaryScore := 3, RFM_Score := 7, ValueSegment := "Low-Value",
      CustomerSegment := "Potential Loyalists" } ]

/-- The scored table `preprocess 10 tSingle` produces: every cut is
degenerate and yields the middle label. -/
def tSingleOut : List ScoredRow :=
  [ { CustomerID := 7, OrderID := some 1, PurchaseDate := some 3,
      TransactionAmount := 42, Recency := some 7, Frequency := 1,
      MonetaryValue := 42, RecencyScore := 3, FrequencyScore := 3,
      MonetaryScore := 3, RFM_Score := 9, ValueSegment := "Mid-Value",
      CustomerSegment := "Champions" } ]

/-! ## Basic facts about the binning -/

theorem scanBins_sound {v : ℚ} {es : List ℚ} : ∀ {j : Nat},
    scanBins v es = some j →
    j + 1 < es.length ∧ es.getD j 0 < v ∧ v ≤ es.getD (j+1) 0 := by
  induction es with
  | nil => intro j h; simp [scanBins] at h
  | cons a rest ih =>
    intro j h
    cases rest with
    | nil => simp [scanBins] at h
    | cons b rest' =>
      rw [scanBins] at h
      by_cases hab : a < v ∧ v ≤ b
      · rw [if_pos hab] at h
        cases h
        refine ⟨by simp, hab.1, hab.2⟩
      · rw [if_neg hab] at h
        rcases Option.map_eq_some'.mp h with ⟨j', hj', rfl⟩
        rcases ih hj' with ⟨h1, h2, h3⟩
        exact ⟨Nat.succ_lt_succ h1, h2, h3⟩

theorem scanBins_total {v : ℚ} {es : List ℚ} :
    2 ≤ es.length → es.getD 0 0 < v → v ≤ es.getD (es.length - 1) 0 →
    (scanBins v es).isSome := by
  induction es with
  | nil => intro h; simp at h
  | cons a rest ih =>
    intro hlen h0 hlast
    cases rest with
    | nil => simp at hlen
    | cons b rest' =>
      rw [scanBins]
      by_cases hab : a < v ∧ v ≤ b
      · rw [if_pos hab]; rfl
      · rw [if_neg hab]
        have hav : a < v := by simpa using h0
        have hbv : b < v := by
          rcases not_and_or.mp hab with h | h
          · exact absurd hav h
          · exact lt_of_not_le h
        cases rest' with
        | nil => exact absurd (by simpa using hlast) (not_le.mpr hbv)
        | cons c rest'' =>
          have hs : (scanBins v (b :: c :: rest'')).isSome := by
            refine ih (by simp) (by simpa using hbv) ?_
            simpa using hlast
          rcases Option.isSome_iff_exists.mp hs with ⟨j, hj⟩
          rw [hj]
          rfl

theorem foldl_min_le_init : ∀ (l : List ℚ) (a : ℚ), l.foldl min a ≤ a := by
  intro l
  induction l with
  | nil => intro a; exact le_refl a
  | cons b l ih => intro a; exact le_trans (ih (min a b)) (min_le_left a b)

theorem foldl_min_le_mem :
    ∀ (l : List ℚ) (a v : ℚ), v ∈ l → l.foldl min a ≤ v := by
  intro l
  induction l with
  | nil => intro a v h; simp at h
  | cons b l ih =>
    intro a v h
    rcases List.mem_cons.mp h with rfl | h
    · exact le_trans (foldl_min_le_init l (min a v)) (min_le_right a v)
    · exact ih (min a b) v h

theorem init_le_foldl_max : ∀ (l : List ℚ) (a : ℚ), a ≤ l.foldl max a := by
  intro l
  induction l with
  | nil => intro a; exact le_refl a
  | cons b l ih => intro a; exact le_trans (le_max_left a b) (ih (max a b))

theorem mem_le_foldl_max :
    ∀ (l : List ℚ) (a v : ℚ), v ∈ l → v ≤ l.foldl max a := by
  intro l
  induction l with
  | nil => intro a v h; simp at h
  | cons b l ih =>
    intro a v h
    rcases List.mem_cons.mp h with rfl | h
    · exact le_trans (le_max_right a v) (init_le_foldl_max l (max a v))
    · exact ih (max a b) v h

theorem colMin_le {vals : List ℚ} {v : ℚ} (h : v ∈ vals) : colMin vals ≤ v := by
  cases vals with
  | nil => simp at h
  | cons w ws =>
    rcases List.mem_cons.mp h with rfl | h
    · exact foldl_min_le_init ws v
    · exact foldl_min_le_mem ws w v h

theorem le_colMax {vals : List ℚ} {v : ℚ} (h : v ∈ vals) : v ≤ colMax vals := by
  cases vals with
  | nil => simp at h
  | cons w ws =>
    rcases List.mem_cons.mp h with rfl | h
    · exact init_le_foldl_max ws v
    · exact mem_le_foldl_max ws w v h

theorem length_cutEdges (mn mx : ℚ) (k : Nat) :
    (cutEdges mn mx k).length = k + 1 := by
  unfold cutEdges
  split <;> simp

theorem cutDelta_pos (mn : ℚ) : 0 < cutDelta mn := by
  unfold cutDelta
  split
  · norm_num
  · next h => positivity

theorem cutEdges_getD_of_ne {mn mx : ℚ} (h : mn ≠ mx) {k j : Nat}
    (hj : j < k + 1) : (cutEdges mn mx k).getD j 0 = cutAdjEdge mn mx k j := by
  unfold cutEdges
  rw [if_neg h]
  have hlen : j < ((List.range (k+1)).map (fun i => cutAdjEdge mn mx k i)).length := by
    simpa using hj
  rw [List.getD_eq_getElem _ _ hlen, List.getElem_map, List.getElem_range]

theorem cutEdges_getD_of_eq {mn : ℚ} {k j : Nat} (hj : j < k + 1) :
    (cutEdges mn mn k).getD j 0 =
      binEdge (mn - cutDelta mn) (mn + cutDelta mn) k j := by
  unfold cutEdges
  rw [if_pos rfl]
  have hlen : j < ((List.range (k+1)).map
      (fun i => binEdge (mn - cutDelta mn) (mn + cutDelta mn) k i)).length := by
    simpa using hj
  rw [List.getD_eq_getElem _ _ hlen, List.getElem_map, List.getElem_range]

theorem binEdge_zero (mn mx : ℚ) (k : Nat) : binEdge mn mx k 0 = mn := by
  simp [binEdge]

theorem binEdge_last {k : Nat} (hk : 1 ≤ k) (mn mx : ℚ) :
    binEdge mn mx k k = mx := by
  have hkq : (0 : ℚ) < k := by exact_mod_cast hk
  have hk0 : (k : ℚ) ≠ 0 := hkq.ne'
  unfold binEdge
  rw [mul_comm, div_mul_cancel₀ _ hk0]
  ring

theorem foldl_min_const :
    ∀ (l : List ℚ) (c : ℚ), (∀ x ∈ l, x = c) → l.foldl min c = c := by
  intro l
  induction l with
  | nil => intro c _; rfl
  | cons b l ih =>
    intro c hall
    have hb : b = c := hall b (by simp)
    rw [List.foldl_cons, hb, min_self]
    exact ih c (fun x hx => hall x (List.mem_cons_of_mem _ hx))

theorem foldl_max_const :
    ∀ (l : List ℚ) (c : ℚ), (∀ x ∈ l, x = c) → l.foldl max c = c := by
  intro l
  induction l with
  | nil => intro c _; rfl
  | cons b l ih =>
    intro c hall
    have hb : b = c := hall b (by simp)
    rw [List.foldl_cons, hb, max_self]
    exact ih c (fun x hx => hall x (List.mem_cons_of_mem _ hx))

theorem colMin_const {vals : List ℚ} {c : ℚ} (hne : vals ≠ [])
    (hall : ∀ x ∈ vals, x = c) : colMin vals = c := by
  cases vals with
  | nil => exact absurd rfl hne
  | cons w ws =>
    have hw : w = c := hall w (by simp)
    rw [colMin, hw]
    exact foldl_min_const ws c (fun x hx => hall x (List.mem_cons_of_mem _ hx))

theorem colMax_const {vals : List ℚ} {c : ℚ} (hne : vals ≠ [])
    (hall : ∀ x ∈ vals, x = c) : colMax vals = c := by
  cases vals with
  | nil => exact absurd rfl hne
  | cons w ws =>
    have hw : w = c := hall w (by simp)
    rw [colMax, hw]
    exact foldl_max_const ws c (fun x hx => hall x (List.mem_cons_of_mem _ hx))

theorem cutIdx_lt {vals : List ℚ} {k : Nat} {v : ℚ} {j : Nat}
    (h : cutIdx vals k v = some j) : j < k := by
  rw [cutIdx] at h
  split at h
  · simp at h
  · have h1 := (scanBins_sound h).1
    rw [length_cutEdges] at h1
    omega

theorem cutIdx_total {vals : List ℚ} {v : ℚ} {k : Nat} (hv : v ∈ vals)
    (hk : 1 ≤ k) : (cutIdx vals k v).isSome := by
  have hne : vals ≠ [] := by rintro rfl; simp at hv
  rw [cutIdx, if_neg hne]
  have h1 : colMin vals ≤ v := colMin_le hv
  have h2 : v ≤ colMax vals := le_colMax hv
  have hlen : (cutEdges (colMin vals) (colMax vals) k).length = k + 1 :=
    length_cutEdges _ _ _
  apply scanBins_total
  · omega
  · by_cases hmm : colMin vals = colMax vals
    · rw [← hmm, cutEdges_getD_of_eq (by omega), binEdge_zero]
      have := cutDelta_pos (colMin vals)
      linarith
    · rw [cutEdges_getD_of_ne hmm (by omega), cutAdjEdge, if_pos rfl]
      have hlt : colMin vals < colMax vals :=
        lt_of_le_of_ne (le_trans h1 h2) hmm
      have : 0 < (colMax vals - colMin vals) / 1000 :=
        div_pos (sub_pos.mpr hlt) (by norm_num)
      linarith
  · rw [hlen]
    have hidx : k + 1 - 1 = k := by omega
    rw [hidx]
    by_cases hmm : colMin vals = colMax vals
    · rw [← hmm, cutEdges_getD_of_eq (by omega), binEdge_last hk]
      have := cutDelta_pos (colMin vals)
      rw [← hmm] at h2
      linarith
    · rw [cutEdges_getD_of_ne hmm (by omega), cutAdjEdge,
        if_neg (by omega : ¬ k = 0), binEdge_last hk]
      exact h2

theorem cutWith_mem {α : Type} {labels : List α} {vals : List ℚ} {v : ℚ}
    {x : α} (h : cutWith labels vals v = some x) : x ∈ labels := by
  rcases Option.bind_eq_some.mp h with ⟨j, hj, hx⟩
  exact List.get?_mem hx

theorem cutWith_total {α : Type} {labels : List α} {vals : List ℚ} {v : ℚ}
    (hv : v ∈ vals) (hl : 1 ≤ labels.length) :
    (cutWith labels vals v).isSome := by
  rw [cutWith]
  rcases Option.isSome_iff_exists.mp (cutIdx_total hv hl) with ⟨j, hj⟩
  have hjl : j < labels.length := cutIdx_lt hj
  rw [hj, Option.some_bind, List.get?_eq_get hjl]
  rfl

theorem cutWith_sound {α : Type} {labels : List α} {vals : List ℚ} {v : ℚ}
    {x : α} (hmn : colMin vals < colMax vals)
    (h : cutWith labels vals v = some x) (d : α) :
    ∃ j, j < labels.length ∧
      cutAdjEdge (colMin vals) (colMax vals) labels.length j < v ∧
      v ≤ binEdge (colMin vals) (colMax vals) labels.length (j+1) ∧
      x = labels.getD j d := by
  rcases Option.bind_eq_some.mp h with ⟨j, hj, hx⟩
  have hne : vals ≠ [] := by
    rintro rfl
    rw [cutIdx] at hj
    simp at hj
  rw [cutIdx, if_neg hne] at hj
  have hs := scanBins_sound hj
  rw [length_cutEdges] at hs
  have hjk : j < labels.length := by omega
  refine ⟨j, hjk, ?_, ?_, ?_⟩
  · have h2 := hs.2.1
    rwa [cutEdges_getD_of_ne hmn.ne (by omega)] at h2
  · have h3 := hs.2.2
    rw [cutEdges_getD_of_ne hmn.ne (by omega), cutAdjEdge,
      if_neg (Nat.succ_ne_zero j)] at h3
    exact h3
  · rw [List.getD_eq_getElem?_getD, ← List.get?_eq_getElem?, hx]
    rfl

theorem scanBins_cons_cons (v a b : ℚ) (rest : List ℚ) :
    scanBins v (a :: b :: rest) =
      if a < v ∧ v ≤ b then some 0
      else (scanBins v (b :: rest)).map (· + 1) := rfl

theorem scanBins_six {e0 e1 e2 e3 e4 e5 v : ℚ}
    (h0 : ¬(e0 < v ∧ v ≤ e1)) (h1 : ¬(e1 < v ∧ v ≤ e2))
    (h2 : e2 < v) (h3 : v ≤ e3) :
    scanBins v [e0, e1, e2, e3, e4, e5] = some 2 := by
  rw [scanBins_cons_cons, if_neg h0, scanBins_cons_cons, if_neg h1,
    scanBins_cons_cons, if_pos ⟨h2, h3⟩]
  rfl

theorem scanBins_four {e0 e1 e2 e3 v : ℚ}
    (h0 : ¬(e0 < v ∧ v ≤ e1)) (h1 : e1 < v) (h2 : v ≤ e2) :
    scanBins v [e0, e1, e2, e3] = some 1 := by
  rw [scanBins_cons_cons, if_neg h0, scanBins_cons_cons, if_pos ⟨h1, h2⟩]
  rfl

theorem cutIdx_const_five {vals : List ℚ} {c : ℚ} (hne : vals ≠ [])
    (hall : ∀ x ∈ vals, x = c) : cutIdx vals 5 c = some 2 := by
  have hmn : colMin vals = c := colMin_const hne hall
  have hmx : colMax vals = c := colMax_const hne hall
  rw [cutIdx, if_neg hne, hmn, hmx, cutEdges, if_pos rfl]
  have hdpos : 0 < cutDelta c := cutDelta_pos c
  have hrange : List.range (5+1) = [0, 1, 2, 3, 4, 5] := by decide
  rw [hrange]
  simp only [List.map_cons, List.map_nil]
  apply scanBins_six
  · rintro ⟨-, h⟩
    rw [binEdge] at h
    push_cast at h
    linarith
  · rintro ⟨-, h⟩
    rw [binEdge] at h
    push_cast at h
    linarith
  · rw [binEdge]
    push_cast
    linarith
  · rw [binEdge]
    push_cast
    linarith

theorem cutIdx_const_three {vals : List ℚ} {c : ℚ} (hne : vals ≠ [])
    (hall : ∀ x ∈ vals, x = c) : cutIdx vals 3 c = some 1 := by
  have hmn : colMin vals = c := colMin_const hne hall
  have hmx : colMax vals = c := colMax_const hne hall
  rw [cutIdx, if_neg hne, hmn, hmx, cutEdges, if_pos rfl]
  have hdpos : 0 < cutDelta c := cutDelta_pos c
  have hrange : List.range (3+1) = [0, 1, 2, 3] := by decide
  rw [hrange]
  simp only [List.map_cons, List.map_nil]
  apply scanBins_four
  · rintro ⟨-, h⟩
    rw [binEdge] at h
    push_cast at h
    linarith
  · rw [binEdge]
    push_cast
    linarith
  · rw [binEdge]
    push_cast
    linarith

/-! ## Facts about the scoring pipeline -/

theorem length_filterMap_of_isSome {α β : Type} (f : α → Option β) :
    ∀ (l : List α), (∀ a ∈ l, (f a).isSome) →
      (l.filterMap f).length = l.length := by
  intro l
  induction l with
  | nil => intro _; rfl
  | cons a l ih =>
    intro h
    rcases Option.isSome_iff_exists.mp (h a (by simp)) with ⟨b, hb⟩
    rw [List.filterMap_cons_some hb]
    simp only [List.length_cons]
    rw [ih (fun x hx => h x (List.mem_cons_of_mem _ hx))]

theorem scoreRow?_some_elim {today : Int} {rows : List RawRow} {r : RawRow}
    {s : ScoredRow} (h : scoreRow? today rows r = some s) :
    ∃ rec rs fs ms vseg,
      recencyOf today r = some rec ∧
      recencyScore? today rows r = some rs ∧
      frequencyScore? rows r = some fs ∧
      monetaryScore? rows r = some ms ∧
      cutWith segment_labels (rfmVals today rows)
        ((rs + fs + ms : Nat) : ℚ) = some vseg ∧
      s = { CustomerID := r.CustomerID
            OrderID := r.OrderID
            PurchaseDate := r.PurchaseDate
            TransactionAmount := r.TransactionAmount
            Recency := some rec
            Frequency := frequencyOf rows r.CustomerID
            MonetaryValue := monetaryOf rows r.CustomerID
            RecencyScore := rs
            FrequencyScore := fs
            MonetaryScore := ms
            RFM_Score := rs + fs + ms
            ValueSegment := vseg
            CustomerSegment := assignSegments (rs + fs + ms) } := by
  rw [scoreRow?] at h
  rcases Option.bind_eq_some.mp h with ⟨rec, h1, h⟩
  rcases Option.bind_eq_some.mp h with ⟨rs, h2, h⟩
  rcases Option.bind_eq_some.mp h with ⟨fs, h3, h⟩
  rcases Option.bind_eq_some.mp h with ⟨ms, h4, h⟩
  rcases Option.bind_eq_some.mp h with ⟨vseg, h5, h⟩
  cases h
  exact ⟨rec, rs, fs, ms, vseg, h1, h2, h3, h4, h5, rfl⟩

theorem scoreRow?_total {today : Int} {rows : List RawRow} {r : RawRow}
    (hmem : r ∈ rows) (hd : r.PurchaseDate.isSome) :
    (scoreRow? today rows r).isSome := by
  rcases Option.isSome_iff_exists.mp hd with ⟨d0, hd0⟩
  have hrec : recencyOf today r = some (today - d0) := by
    rw [recencyOf, hd0]
    rfl
  have hvr : ((today - d0 : Int) : ℚ) ∈ recencyVals today rows :=
    List.mem_filterMap.mpr ⟨r, hmem, by rw [hrec]; rfl⟩
  rcases Option.isSome_iff_exists.mp
      (@cutWith_total Nat recency_scores _ _ hvr (by decide)) with ⟨rs, hrs⟩
  have h2 : recencyScore? today rows r = some rs := by
    rw [recencyScore?, hrec, Option.some_bind]
    exact hrs
  have hvf : (frequencyOf rows r.CustomerID : ℚ) ∈ frequencyVals rows :=
    List.mem_map.mpr ⟨r, hmem, rfl⟩
  rcases Option.isSome_iff_exists.mp
      (@cutWith_total Nat frequency_scores _ _ hvf (by decide)) with ⟨fs, hfs⟩
  have h3 : frequencyScore? rows r = some fs := hfs
  have hvm : monetaryOf rows r.CustomerID ∈ monetaryVals rows :=
    List.mem_map.mpr ⟨r, hmem, rfl⟩
  rcases Option.isSome_iff_exists.mp
      (@cutWith_total Nat monetary_scores _ _ hvm (by decide)) with ⟨ms, hms⟩
  have h4 : monetaryScore? rows r = some ms := hms
  have hrfm : rfmScore? today rows r = some (rs + fs + ms) := by
    rw [rfmScore?, h2, h3, h4]
    rfl
  have hvv : ((rs + fs + ms : Nat) : ℚ) ∈ rfmVals today rows :=
    List.mem_filterMap.mpr ⟨r, hmem, by rw [hrfm]; rfl⟩
  rcases Option.isSome_iff_exists.mp
      (@cutWith_total String segment_labels _ _ hvv (by decide)) with ⟨vseg, hvseg⟩
  rw [scoreRow?, hrec, Option.some_bind, h2, Option.some_bind, h3,
    Option.some_bind, h4, Option.some_bind, hvseg, Option.some_bind]
  rfl

theorem preprocess_total {today : Int} {rows : List RawRow}
    (hd : ∀ r ∈ rows, r.PurchaseDate.isSome) :
    preprocess today rows = some (rows.filterMap (scoreRow? today rows)) := by
  rw [preprocess, if_pos]
  rw [List.all_eq_true]
  exact fun r hr => scoreRow?_total hr (hd r hr)

theorem preprocess_mem {today : Int} {rows : List RawRow}
    {out : List ScoredRow} {s : ScoredRow} (h : preprocess today rows = some out)
    (hs : s ∈ out) : ∃ r ∈ rows, scoreRow? today rows r = some s := by
  rw [preprocess] at h
  split at h
  · cases h
    exact List.mem_filterMap.mp hs
  · simp at h

theorem preprocess_length {today : Int} {rows : List RawRow}
    {out : List ScoredRow} (h : preprocess today rows = some out) :
    out.length = rows.length := by
  rw [preprocess] at h
  split at h
  case isTrue hall =>
    cases h
    exact length_filterMap_of_isSome _ _ (List.all_eq_true.mp hall)
  case isFalse => simp at h

/-! ## Facts about the re-engagement pass -/

theorem idxZip_length {α : Type} : ∀ (i : Nat) (l : List α),
    (idxZip i l).length = l.length := by
  intro i l
  induction l generalizing i with
  | nil => rfl
  | cons a l ih => simp [idxZip, ih]

theorem idxZip_map_fst {α : Type} : ∀ (i : Nat) (l : List α),
    (idxZip i l).map Prod.fst = List.range' i l.length := by
  intro i l
  induction l generalizing i with
  | nil => rfl
  | cons a l ih => simp [idxZip, List.range'_succ, ih]

theorem idxZip_mem {α : Type} [Inhabited α] :
    ∀ {i : Nat} {l : List α} {j : Nat} {r : α}, (j, r) ∈ idxZip i l →
      i ≤ j ∧ j - i < l.length ∧ r = l.getD (j - i) default := by
  intro i l
  induction l generalizing i with
  | nil => intro j r h; simp [idxZip] at h
  | cons a l ih =>
    intro j r h
    rw [idxZip, List.mem_cons] at h
    rcases h with h | h
    · rcases Prod.mk.injEq .. |>.mp h with ⟨rfl, rfl⟩
      simp
    · rcases ih h with ⟨h1, h2, h3⟩
      have hlen : (a :: l).length = l.length + 1 := rfl
      refine ⟨by omega, by omega, ?_⟩
      have hji : j - i = (j - (i+1)) + 1 := by omega
      rw [hji, List.getD_cons_succ]
      exact h3

theorem countP_idxZip_snd {α : Type} (p : α → Bool) : ∀ (i : Nat) (l : List α),
    (idxZip i l).countP (fun q => p q.2) = l.countP p := by
  intro i l
  induction l generalizing i with
  | nil => rfl
  | cons a l ih => simp [idxZip, List.countP_cons, ih]

theorem countP_congr_mem {α : Type} {p q : α → Bool} :
    ∀ {l : List α}, (∀ a ∈ l, p a = q a) → l.countP p = l.countP q := by
  intro l
  induction l with
  | nil => intro _; rfl
  | cons a l ih =>
    intro h
    rw [List.countP_cons, List.countP_cons, h a (by simp),
      ih (fun x hx => h x (List.mem_cons_of_mem _ hx))]

theorem countP_split {α : Type} (c p : α → Bool) :
    ∀ l : List α,
      l.countP p = l.countP (fun x => c x && p x) +
        l.countP (fun x => !(c x) && p x) := by
  intro l
  induction l with
  | nil => rfl
  | cons a l ih =>
    by_cases hc : c a = true <;> by_cases hp : p a = true <;>
      simp [List.countP_cons, hc, hp, ih] <;> omega

theorem countP_map_ite {α : Type} {β : Type} (c : α → Prop) [DecidablePred c]
    (f g : α → β) (p : β → Bool) :
    ∀ l : List α,
      (l.map (fun x => if c x then f x else g x)).countP p =
        l.countP (fun x => decide (c x) && p (f x)) +
        l.countP (fun x => !(decide (c x)) && p (g x)) := by
  intro l
  induction l with
  | nil => rfl
  | cons a l ih =>
    by_cases hc : c a
    · by_cases hp : p (f a) = true <;>
        simp [List.countP_cons, hc, hp, ih] <;> omega
    · by_cases hp : p (g a) = true <;>
        simp [List.countP_cons, hc, hp, ih] <;> omega

theorem relabelFrom_eq_map (chosen : List Nat) :
    ∀ (i : Nat) (rs : List ScoredRow),
      relabelFrom chosen i rs = (idxZip i rs).map
        (fun q => if q.1 ∈ chosen
          then { q.2 with CustomerSegment := "Potential Loyalists" }
          else q.2) := by
  intro i rs
  induction rs generalizing i with
  | nil => rfl
  | cons r rs ih =>
    simp only [relabelFrom, idxZip, List.map_cons]
    rw [ih (i+1)]

theorem length_relabelFrom (chosen : List Nat) (i : Nat)
    (rs : List ScoredRow) : (relabelFrom chosen i rs).length = rs.length := by
  rw [relabelFrom_eq_map, List.length_map, idxZip_length]

theorem relabelFrom_nil_chosen : ∀ (i : Nat) (rs : List ScoredRow),
    relabelFrom [] i rs = rs := by
  intro i rs
  induction rs generalizing i with
  | nil => rfl
  | cons r rs ih => simp [relabelFrom, ih]

theorem lostIndices_mem {rows : List ScoredRow} {j : Nat} :
    j ∈ lostIndices rows ↔
      ∃ r, (j, r) ∈ idxZip 0 rows ∧ r.CustomerSegment = "Lost" := by
  rw [lostIndices]
  constructor
  · intro h
    rcases List.mem_map.mp h with ⟨q, hq, hq1⟩
    rcases List.mem_filter.mp hq with ⟨hmem, hseg⟩
    subst hq1
    exact ⟨q.2, by simpa using hmem, by simpa using hseg⟩
  · rintro ⟨r, hmem, hseg⟩
    exact List.mem_map.mpr ⟨(j, r),
      List.mem_filter.mpr ⟨hmem, by simpa using hseg⟩, rfl⟩

theorem lostIndices_length (rows : List ScoredRow) :
    (lostIndices rows).length = segCount "Lost" rows := by
  rw [lostIndices, List.length_map, ← List.countP_eq_length_filter]
  exact countP_idxZip_snd (fun r => r.CustomerSegment == "Lost") 0 rows

theorem lostIndices_lt {rows : List ScoredRow} {j : Nat}
    (h : j ∈ lostIndices rows) : j < rows.length := by
  rcases lostIndices_mem.mp h with ⟨r, hmem, -⟩
  have := idxZip_mem hmem
  omega

theorem chosen_pairs_lost {rows : List ScoredRow} {chosen : List Nat}
    (hsub : ∀ j ∈ chosen, j ∈ lostIndices rows) :
    ∀ q ∈ idxZip 0 rows, q.1 ∈ chosen → q.2.CustomerSegment = "Lost" := by
  rintro ⟨j, r⟩ hq hj
  have h1 := idxZip_mem hq
  rcases lostIndices_mem.mp (hsub j hj) with ⟨r', hr', hseg⟩
  have h3 := idxZip_mem hr'
  have hrr : r = r' := by rw [h1.2.2, h3.2.2]
  rw [hrr]
  exact hseg

theorem sampleFuel_perm :
    ∀ (fuel s : Nat) (pool : List Nat), pool.length ≤ fuel →
      (sampleFuel fuel s pool).Perm pool := by
  intro fuel
  induction fuel with
  | zero =>
    intro s pool h
    have hnil : pool = [] := List.length_eq_zero.mp (Nat.le_zero.mp h)
    subst hnil
    exact List.Perm.refl _
  | succ fuel ih =>
    intro s pool h
    by_cases hp : pool = []
    · subst hp
      simp [sampleFuel]
    · rw [sampleFuel, if_neg hp]
      have hlen : 0 < pool.length := List.length_pos.mpr hp
      have hi : lcgNext s % pool.length < pool.length := Nat.mod_lt _ hlen
      have hx : pool.getD (lcgNext s % pool.length) 0 ∈ pool := by
        rw [List.getD_eq_getElem _ _ hi]
        exact List.getElem_mem _
      have herase :
          (pool.erase (pool.getD (lcgNext s % pool.length) 0)).length ≤ fuel := by
        rw [List.length_erase_of_mem hx]
        omega
      exact ((ih (lcgNext s) _ herase).cons _).trans
        (List.perm_cons_erase hx).symm

theorem shuffle_perm (seed : Nat) (pool : List Nat) :
    (shuffle seed pool).Perm pool :=
  sampleFuel_perm _ _ _ (le_refl _)

theorem sampleCount_le (N : Nat) : sampleCount N ≤ N := by
  rw [sampleCount]
  rw [Int.toNat_le]
  have h1 : ((N : ℚ) / 5 + 1 / 2) < (N : ℚ) + 1 := by
    have hN : (0 : ℚ) ≤ (N : ℚ) := Nat.cast_nonneg N
    have h2 : (N : ℚ) / 5 ≤ (N : ℚ) := div_le_self hN (by norm_num)
    linarith
  rw [round_eq]
  have h3 : (((N : ℤ) + 1 : ℤ) : ℚ) = (N : ℚ) + 1 := by push_cast; ring
  have := Int.floor_lt.mpr (h3 ▸ h1)
  omega

theorem lostIndices_nodup (rows : List ScoredRow) :
    (lostIndices rows).Nodup := by
  rw [lostIndices]
  have hsub : (((idxZip 0 rows).filter
        (fun p => p.2.CustomerSegment == "Lost")).map (fun p => p.1)).Sublist
      ((idxZip 0 rows).map (fun p => p.1)) :=
    ((idxZip 0 rows).filter_sublist).map _
  have hnodup : ((idxZip 0 rows).map (fun p : Nat × ScoredRow => p.1)).Nodup := by
    have h : (idxZip 0 rows).map (fun p : Nat × ScoredRow => p.1) =
        List.range' 0 rows.length := idxZip_map_fst 0 rows
    rw [h]
    exact List.nodup_range' 0 rows.length
  exact hsub.nodup hnodup

theorem reengageChosen_subset {rows : List ScoredRow} :
    ∀ j ∈ reengageChosen rows, j ∈ lostIndices rows := by
  intro j hj
  rw [reengageChosen] at hj
  exact (shuffle_perm 1 (lostIndices rows)).mem_iff.mp
    (List.take_subset _ _ hj)

theorem reengageChosen_nodup (rows : List ScoredRow) :
    (reengageChosen rows).Nodup := by
  rw [reengageChosen]
  exact (List.take_sublist _ _).nodup
    ((shuffle_perm 1 _).nodup_iff.mpr (lostIndices_nodup rows))

theorem reengageChosen_length (rows : List ScoredRow) :
    (reengageChosen rows).length = sampleCount (segCount "Lost" rows) := by
  rw [reengageChosen, List.length_take, (shuffle_perm 1 _).length_eq,
    lostIndices_length]
  have := sampleCount_le (segCount "Lost" rows)
  omega

theorem seg_update (r : ScoredRow) (v : String) :
    ({ r with CustomerSegment := v } : ScoredRow).CustomerSegment = v := rfl

theorem countP_mem_chosen (rows : List ScoredRow) (chosen : List Nat)
    (hnodup : chosen.Nodup) (hbound : ∀ j ∈ chosen, j < rows.length) :
    (idxZip 0 rows).countP (fun q => decide (q.1 ∈ chosen)) = chosen.length := by
  have h1 : (idxZip 0 rows).countP (fun q => decide (q.1 ∈ chosen)) =
      ((idxZip 0 rows).map Prod.fst).countP (fun j => decide (j ∈ chosen)) := by
    rw [List.countP_map]
    rfl
  rw [h1, idxZip_map_fst, List.countP_eq_length_filter]
  apply List.Perm.length_eq
  apply (List.perm_ext_iff_of_nodup
    ((List.nodup_range' 0 rows.length).filter _) hnodup).mpr
  intro a
  simp only [List.mem_filter, List.mem_range'_1, decide_eq_true_eq]
  constructor
  · rintro ⟨-, h⟩
    exact h
  · intro h
    exact ⟨⟨Nat.zero_le a, by simpa using hbound a h⟩, h⟩


theorem countP_split_applied (chosen : List Nat) (rows : List ScoredRow)
    (t : String) :
    (idxZip 0 rows).countP (fun q => q.2.CustomerSegment == t) =
      (idxZip 0 rows).countP
        (fun q => decide (q.1 ∈ chosen) && (q.2.CustomerSegment == t)) +
      (idxZip 0 rows).countP
        (fun q => !(decide (q.1 ∈ chosen)) && (q.2.CustomerSegment == t)) :=
  countP_split (fun q => decide (q.1 ∈ chosen))
    (fun q => q.2.CustomerSegment == t) (idxZip 0 rows)

theorem segCount_relabel_split (chosen : List Nat) (rows : List ScoredRow)
    (t : String) :
    segCount t (relabelFrom chosen 0 rows) =
      (idxZip 0 rows).countP
        (fun q => decide (q.1 ∈ chosen) &&
          (("Potential Loyalists" : String) == t)) +
      (idxZip 0 rows).countP
        (fun q => !(decide (q.1 ∈ chosen)) && (q.2.CustomerSegment == t)) := by
  rw [segCount, relabelFrom_eq_map]
  exact countP_map_ite (fun q : Nat × ScoredRow => q.1 ∈ chosen)
    (fun q => { q.2 with CustomerSegment := "Potential Loyalists" })
    (fun q => q.2) (fun r => r.CustomerSegment == t) (idxZip 0 rows)

theorem segCount_snd (rows : List ScoredRow) (t : String) :
    segCount t rows =
      (idxZip 0 rows).countP (fun q => q.2.CustomerSegment == t) := by
  rw [segCount]
  exact (countP_idxZip_snd (α := ScoredRow)
    (fun r => r.CustomerSegment == t) 0 rows).symm

theorem segCount_relabel (rows : List ScoredRow) (chosen : List Nat)
    (hnodup : chosen.Nodup) (hsub : ∀ j ∈ chosen, j ∈ lostIndices rows)
    (s : String) :
    segCount s (relabelFrom chosen 0 rows) =
      (if s = "Lost" then segCount s rows - chosen.length
       else if s = "Potential Loyalists" then segCount s rows + chosen.length
       else segCount s rows) := by
  have hbound : ∀ j ∈ chosen, j < rows.length :=
    fun j hj => lostIndices_lt (hsub j hj)
  have hlostpair := chosen_pairs_lost hsub
  have hA := segCount_relabel_split chosen rows s
  have hB := countP_split_applied chosen rows s
  have hsnd := segCount_snd rows s
  split_ifs with h1 h2
  · subst h1
    have hzero : (idxZip 0 rows).countP
        (fun q => decide (q.1 ∈ chosen) &&
          (("Potential Loyalists" : String) == "Lost")) = 0 := by
      rw [List.countP_eq_zero]
      intro q hq
      simp
    have hc : (idxZip 0 rows).countP
        (fun q => decide (q.1 ∈ chosen) && (q.2.CustomerSegment == "Lost")) =
        chosen.length := by
      rw [countP_congr_mem (q := fun q : Nat × ScoredRow =>
        decide (q.1 ∈ chosen)) ?_]
      · exact countP_mem_chosen rows chosen hnodup hbound
      · intro q hq
        by_cases hch : q.1 ∈ chosen
        · simp [hch, hlostpair q hq hch]
        · simp [hch]
    rw [hA, hzero, hsnd, hB, hc]
    omega
  · subst h2
    have hone : (idxZip 0 rows).countP
        (fun q => decide (q.1 ∈ chosen) &&
          (("Potential Loyalists" : String) == "Potential Loyalists")) =
        chosen.length := by
      rw [countP_congr_mem (q := fun q : Nat × ScoredRow =>
        decide (q.1 ∈ chosen)) (fun q _ => by simp)]
      exact countP_mem_chosen rows chosen hnodup hbound
    have hc : (idxZip 0 rows).countP
        (fun q => decide (q.1 ∈ chosen) &&
          (q.2.CustomerSegment == "Potential Loyalists")) = 0 := by
      rw [List.countP_eq_zero]
      rintro q hq hpq
      rcases Bool.and_eq_true .. |>.mp hpq with ⟨hch, hseg⟩
      have hl := hlostpair q hq (by simpa using hch)
      rw [hl] at hseg
      simp at hseg
    rw [hA, hone, hsnd, hB, hc]
    omega
  · have hzero : (idxZip 0 rows).countP
        (fun q => decide (q.1 ∈ chosen) &&
          (("Potential Loyalists" : String) == s)) = 0 := by
      rw [List.countP_eq_zero]
      rintro q hq hpq
      rcases Bool.and_eq_true .. |>.mp hpq with ⟨-, hseg⟩
      have : "Potential Loyalists" = s := by simpa using hseg
      exact h2 this.symm
    have hc : (idxZip 0 rows).countP
        (fun q => decide (q.1 ∈ chosen) && (q.2.CustomerSegment == s)) = 0 := by
      rw [List.countP_eq_zero]
      rintro q hq hpq
      rcases Bool.and_eq_true .. |>.mp hpq with ⟨hch, hseg⟩
      have hl := hlostpair q hq (by simpa using hch)
      rw [hl] at hseg
      have : "Lost" = s := by simpa using hseg
      exact h1 this.symm
    rw [hA, hzero, hsnd, hB, hc]

theorem assignSegments_eq_spec (s : Nat) :
    assignSegments s = customerSegmentSpec s := by
  simp only [assignSegments, customerSegmentSpec]
  split_ifs <;> first | rfl | (exfalso; omega)

theorem relabelFrom_getD (chosen : List Nat) :
    ∀ (i k : Nat) (rs : List ScoredRow), k < rs.length →
      (relabelFrom chosen i rs).getD k default =
        (if (i + k) ∈ chosen
         then { rs.getD k default with
                CustomerSegment := "Potential Loyalists" }
         else rs.getD k default) := by
  intro i k rs
  induction rs generalizing i k with
  | nil => intro h; simp at h
  | cons r rs ih =>
    intro hk
    cases k with
    | zero => simp [relabelFrom]
    | succ k =>
      simp only [relabelFrom, List.getD_cons_succ]
      have hik : i + 1 + k = i + (k + 1) := by omega
      rw [ih (i+1) k (by simpa using hk), hik]

theorem cutWith_const_recency {vals : List ℚ} {v : ℚ} (hv : v ∈ vals)
    (hconst : colMin vals = colMax vals) :
    cutWith recency_scores vals v = some 3 := by
  have hne : vals ≠ [] := by rintro rfl; simp at hv
  have hall : ∀ x ∈ vals, x = colMin vals := by
    intro x hx
    have h1 := colMin_le hx
    have h2 := le_colMax hx
    rw [← hconst] at h2
    exact le_antisymm h2 h1
  have hvc : v = colMin vals := hall v hv
  subst hvc
  rw [cutWith]
  have : recency_scores.length = 5 := rfl
  rw [this, cutIdx_const_five hne hall]
  rfl

theorem cutWith_const_ascending {vals : List ℚ} {v : ℚ}
    (labels : List Nat) (hlab : labels = [1, 2, 3, 4, 5]) (hv : v ∈ vals)
    (hconst : colMin vals = colMax vals) :
    cutWith labels vals v = some 3 := by
  subst hlab
  have hne : vals ≠ [] := by rintro rfl; simp at hv
  have hall : ∀ x ∈ vals, x = colMin vals := by
    intro x hx
    have h1 := colMin_le hx
    have h2 := le_colMax hx
    rw [← hconst] at h2
    exact le_antisymm h2 h1
  have hvc : v = colMin vals := hall v hv
  subst hvc
  rw [cutWith]
  have h5 : ([1, 2, 3, 4, 5] : List Nat).length = 5 := rfl
  rw [h5, cutIdx_const_five hne hall]
  rfl

/-! ## The claims -/

/-- C1: for every row of the table produced by the scoring pipeline, each of
`RecencyScore`, `FrequencyScore` and `MonetaryScore` is an integer in
`{1,2,3,4,5}`, `RFM_Score` equals their sum, and therefore `RFM_Score` lies
in `[3,15]` for every row with non-missing metrics. -/
theorem rfm_scores_in_range (today : Int) (rows : List RawRow)
    (out : List ScoredRow) (h : preprocess today rows = some out) :
    ∀ s ∈ out,
      (1 ≤ s.RecencyScore ∧ s.RecencyScore ≤ 5) ∧
      (1 ≤ s.FrequencyScore ∧ s.FrequencyScore ≤ 5) ∧
      (1 ≤ s.MonetaryScore ∧ s.MonetaryScore ≤ 5) ∧
      s.RFM_Score = s.RecencyScore + s.FrequencyScore + s.MonetaryScore ∧
      3 ≤ s.RFM_Score ∧ s.RFM_Score ≤ 15 := by
  intro s hs
  rcases preprocess_mem h hs with ⟨r, hr, hscore⟩
  rcases scoreRow?_some_elim hscore with
    ⟨rec, rs, fs, ms, vseg, h1, h2, h3, h4, h5, rfl⟩
  have hrs : rs ∈ recency_scores := by
    rcases Option.bind_eq_some.mp h2 with ⟨rec', hrec', hcut⟩
    exact cutWith_mem hcut
  have hfs : fs ∈ frequency_scores := by
    rw [frequencyScore?] at h3
    exact cutWith_mem h3
  have hms : ms ∈ monetary_scores := by
    rw [monetaryScore?] at h4
    exact cutWith_mem h4
  have hrs5 : 1 ≤ rs ∧ rs ≤ 5 := by
    rw [recency_scores] at hrs
    simp only [List.mem_cons, List.not_mem_nil, or_false] at hrs
    omega
  have hfs5 : 1 ≤ fs ∧ fs ≤ 5 := by
    rw [frequency_scores] at hfs
    simp only [List.mem_cons, List.not_mem_nil, or_false] at hfs
    omega
  have hms5 : 1 ≤ ms ∧ ms ≤ 5 := by
    rw [monetary_scores] at hms
    simp only [List.mem_cons, List.not_mem_nil, or_false] at hms
    omega
  refine ⟨hrs5, hfs5, hms5, rfl, ?_, ?_⟩
  · show 3 ≤ rs + fs + ms
    omega
  · show rs + fs + ms ≤ 15
    omega

/-- Witness for C1 at the concrete table `tEx`. -/
theorem rfm_scores_in_range_witness :
    3 ≤ (tExOut.getD 0 default).RFM_Score ∧
    (tExOut.getD 0 default).RFM_Score ≤ 15 ∧
    1 ≤ (tExOut.getD 0 default).RecencyScore := by
  have hpre : preprocess 100 tEx = some tExOut := by
    with_unfolding_all decide
  have hmem : tExOut.getD 0 default ∈ tExOut := by
    with_unfolding_all decide
  have h := rfm_scores_in_range 100 tEx tExOut hpre _ hmem
  exact ⟨h.2.2.2.2.1, h.2.2.2.2.2, h.1.1⟩

/-- C2: before the re-engagement pass, `CustomerSegment` is the
deterministic pure function of `RFM_Score` given by the fixed-threshold
rule chain, and in particular scores 9, 8, 5, 4, 3 map to `Champions`,
`Potential Loyalists`, `At Risk Customers`, `Can't Lose` and `Lost`. -/
theorem customer_segment_rule (today : Int) (rows : List RawRow)
    (out : List ScoredRow) (h : preprocess today rows = some out) :
    (∀ s ∈ out, s.CustomerSegment = customerSegmentSpec s.RFM_Score) ∧
    customerSegmentSpec 9 = "Champions" ∧
    customerSegmentSpec 8 = "Potential Loyalists" ∧
    customerSegmentSpec 5 = "At Risk Customers" ∧
    customerSegmentSpec 4 = "Can't Lose" ∧
    customerSegmentSpec 3 = "Lost" := by
  refine ⟨?_, rfl, rfl, rfl, rfl, rfl⟩
  intro s hs
  rcases preprocess_mem h hs with ⟨r, hr, hscore⟩
  rcases scoreRow?_some_elim hscore with
    ⟨rec, rs, fs, ms, vseg, -, -, -, -, -, rfl⟩
  exact assignSegments_eq_spec (rs + fs + ms)

/-- Witness for C2 at the concrete table `tEx`. -/
theorem customer_segment_rule_witness :
    (tExOut.getD 0 default).CustomerSegment =
      customerSegmentSpec (tExOut.getD 0 default).RFM_Score ∧
    customerSegmentSpec 9 = "Champions" := by
  have hpre : preprocess 100 tEx = some tExOut := by
    with_unfolding_all decide
  have h := customer_segment_rule 100 tEx tExOut hpre
  exact ⟨h.1 _ (by with_unfolding_all decide), h.2.1⟩

/-- C3: the re-engagement pass relabels exactly `round(0.2 * N_lost)` rows,
drawn deterministically without replacement from the `Lost` rows: the
`Lost` count drops by exactly that number, the `Potential Loyalists` count
rises by the same number, every other segment's count is unchanged, and
with no `Lost` rows the pass is a no-op. -/
theorem reengage_counts (rows : List ScoredRow) :
    segCount "Lost" (reengage rows) =
      segCount "Lost" rows - sampleCount (segCount "Lost" rows) ∧
    segCount "Potential Loyalists" (reengage rows) =
      segCount "Potential Loyalists" rows +
        sampleCount (segCount "Lost" rows) ∧
    (∀ s : String, s ≠ "Lost" → s ≠ "Potential Loyalists" →
      segCount s (reengage rows) = segCount s rows) ∧
    (segCount "Lost" rows = 0 → reengage rows = rows) := by
  have hnodup := reengageChosen_nodup rows
  have hsub := @reengageChosen_subset rows
  have hlen := reengageChosen_length rows
  refine ⟨?_, ?_, ?_, ?_⟩
  · have h := segCount_relabel rows (reengageChosen rows) hnodup hsub "Lost"
    rw [if_pos rfl] at h
    rw [reengage, h, hlen]
  · have h := segCount_relabel rows (reengageChosen rows) hnodup hsub
      "Potential Loyalists"
    rw [if_neg (by decide), if_pos rfl] at h
    rw [reengage, h, hlen]
  · intro s hs1 hs2
    have h := segCount_relabel rows (reengageChosen rows) hnodup hsub s
    rw [if_neg hs1, if_neg hs2] at h
    rw [reengage, h]
  · intro h0
    have hlost : lostIndices rows = [] := by
      have hl := lostIndices_length rows
      rw [h0] at hl
      exact List.length_eq_zero.mp hl
    rw [reengage, reengageChosen, hlost]
    rw [show shuffle 1 ([] : List Nat) = [] from rfl, List.take_nil]
    exact relabelFrom_nil_chosen 0 rows

/-- Witness for C3: ten `Lost` rows yield exactly two relabelings. -/
theorem reengage_counts_witness :
    segCount "Lost" (reengage tSeg) = 8 ∧
    segCount "Potential Loyalists" (reengage tSeg) = 2 ∧
    segCount "Champions" (reengage tSeg) = 3 := by
  have h := reengage_counts tSeg
  have h1 : segCount "Lost" tSeg = 10 := by with_unfolding_all decide
  have h2 : segCount "Potential Loyalists" tSeg = 0 := by
    with_unfolding_all decide
  have h3 : sampleCount 10 = 2 := by with_unfolding_all decide
  have h4 : segCount "Champions" tSeg = 3 := by with_unfolding_all decide
  refine ⟨?_, ?_, ?_⟩
  · rw [h.1, h1, h3]
  · rw [h.2.1, h2, h1, h3]
  · rw [h.2.2.1 "Champions" (by decide) (by decide), h4]

/-- C4 (counterexample): the middle row of `tBoundary` has recency exactly
on the first interior bin edge (value 2 with edges at 0, 2, 4, 6, 8, 10).
The claimed convention — left-closed half-open intervals over `[min, max]`,
last interval closed on the right — puts it in the second bin (label 4),
but the pipeline assigns the first bin (label 5), because `pd.cut` uses
left-open right-closed intervals. This is not the degenerate case: the
recency column's min and max differ. -/
theorem equal_width_binning_counterexample :
    preprocess 10 tBoundary = some tBoundaryOut ∧
    (tBoundaryOut.getD 1 default).Recency = some 2 ∧
    (tBoundaryOut.getD 1 default).RecencyScore = 5 ∧
    specCutLC recency_scores (recencyVals 10 tBoundary) 2 = some 4 ∧
    colMin (recencyVals 10 tBoundary) < colMax (recencyVals 10 tBoundary) ∧
    (5 : Nat) ≠ 4 := by
  refine ⟨?_, rfl, rfl, ?_, ?_, by decide⟩
  · with_unfolding_all decide
  · with_unfolding_all decide
  · with_unfolding_all decide

/-- C4 (amended): each component score is obtained by laying 6 equally
spaced edges over the metric's observed `[min, max]`, lowering the first
edge by 0.1% of the range, and assigning a value the label of the unique
left-open right-closed interval `(e_j, e_{j+1}]` containing it (so a value
on an interior edge falls in the lower bin); labels are `[5,4,3,2,1]` for
Recency and `[1,2,3,4,5]` for Frequency and Monetary, and `ValueSegment`
is produced the same way from `RFM_Score`'s observed range with 3 intervals
labeled `Low-Value`, `Mid-Value`, `High-Value`. (Stated for metrics whose
observed min and max differ; a constant column takes the widened-range
fallback instead.) -/
theorem equal_width_binning_amended (today : Int) (rows : List RawRow)
    (out : List ScoredRow) (h : preprocess today rows = some out) :
    ∀ s ∈ out,
      (∀ rec : Int, s.Recency = some rec →
        colMin (recencyVals today rows) < colMax (recencyVals today rows) →
        ∃ j, j < 5 ∧
          cutAdjEdge (colMin (recencyVals today rows))
            (colMax (recencyVals today rows)) 5 j < (rec : ℚ) ∧
          (rec : ℚ) ≤ binEdge (colMin (recencyVals today rows))
            (colMax (recencyVals today rows)) 5 (j+1) ∧
          s.RecencyScore = recency_scores.getD j 0) ∧
      (colMin (frequencyVals rows) < colMax (frequencyVals rows) →
        ∃ j, j < 5 ∧
          cutAdjEdge (colMin (frequencyVals rows))
            (colMax (frequencyVals rows)) 5 j < (s.Frequency : ℚ) ∧
          (s.Frequency : ℚ) ≤ binEdge (colMin (frequencyVals rows))
            (colMax (frequencyVals rows)) 5 (j+1) ∧
          s.FrequencyScore = frequency_scores.getD j 0) ∧
      (colMin (monetaryVals rows) < colMax (monetaryVals rows) →
        ∃ j, j < 5 ∧
          cutAdjEdge (colMin (monetaryVals rows))
            (colMax (monetaryVals rows)) 5 j < s.MonetaryValue ∧
          s.MonetaryValue ≤ binEdge (colMin (monetaryVals rows))
            (colMax (monetaryVals rows)) 5 (j+1) ∧
          s.MonetaryScore = monetary_scores.getD j 0) ∧
      (colMin (rfmVals today rows) < colMax (rfmVals today rows) →
        ∃ j, j < 3 ∧
          cutAdjEdge (colMin (rfmVals today rows))
            (colMax (rfmVals today rows)) 3 j < (s.RFM_Score : ℚ) ∧
          (s.RFM_Score : ℚ) ≤ binEdge (colMin (rfmVals today rows))
            (colMax (rfmVals today rows)) 3 (j+1) ∧
          s.ValueSegment = segment_labels.getD j "") := by
  intro s hs
  rcases preprocess_mem h hs with ⟨r, hr, hscore⟩
  rcases scoreRow?_some_elim hscore with
    ⟨rec0, rs, fs, ms, vseg, h1, h2, h3, h4, h5, rfl⟩
  refine ⟨?_, ?_, ?_, ?_⟩
  · intro rec hrec hmn
    have hsome : (some rec0 : Option Int) = some rec := hrec
    injection hsome with hh
    subst hh
    rcases Option.bind_eq_some.mp h2 with ⟨rec', hrec', hcut⟩
    rw [h1] at hrec'
    injection hrec' with hh2
    subst hh2
    rcases cutWith_sound hmn hcut 0 with ⟨j, hj, hlt, hle, hx⟩
    exact ⟨j, hj, hlt, hle, hx⟩
  · intro hmn
    rw [frequencyScore?] at h3
    rcases cutWith_sound hmn h3 0 with ⟨j, hj, hlt, hle, hx⟩
    exact ⟨j, hj, hlt, hle, hx⟩
  · intro hmn
    rw [monetaryScore?] at h4
    rcases cutWith_sound hmn h4 0 with ⟨j, hj, hlt, hle, hx⟩
    exact ⟨j, hj, hlt, hle, hx⟩
  · intro hmn
    rcases cutWith_sound hmn h5 "" with ⟨j, hj, hlt, hle, hx⟩
    exact ⟨j, hj, hlt, hle, hx⟩

/-- Witness for the amended C4 at the first row of `tEx` (recency 10,
observed range `[0, 40]`). -/
theorem equal_width_binning_amended_witness :
    ∃ j, j < 5 ∧
      cutAdjEdge (colMin (recencyVals 100 tEx))
        (colMax (recencyVals 100 tEx)) 5 j < ((10 : Int) : ℚ) ∧
      ((10 : Int) : ℚ) ≤ binEdge (colMin (recencyVals 100 tEx))
        (colMax (recencyVals 100 tEx)) 5 (j+1) ∧
      (tExOut.getD 0 default).RecencyScore = recency_scores.getD j 0 := by
  have hpre : preprocess 100 tEx = some tExOut := by
    with_unfolding_all decide
  have hmem : tExOut.getD 0 default ∈ tExOut := by
    with_unfolding_all decide
  exact (equal_width_binning_amended 100 tEx tExOut hpre _ hmem).1 10
    (by with_unfolding_all decide) (by with_unfolding_all decide)

/-- C5 (code bug): a row whose `PurchaseDate` failed to parse is coerced to
the missing marker and its `Recency` is missing, but the whole computation
then aborts: `astype(int)` on the `RecencyScore` column raises on the
missing value, modelled here by `preprocess` returning `none`. -/
theorem malformed_date_aborts :
    tBad.getD 1 default =
      { CustomerID := 2, OrderID := some 2, PurchaseDate := none,
        TransactionAmount := 30 } ∧
    recencyOf 100 (tBad.getD 1 default) = none ∧
    preprocess 100 tBad = none := by
  refine ⟨rfl, rfl, ?_⟩
  with_unfolding_all decide

/-- C6: the re-engagement pass overwrites only `CustomerSegment`: every
other field of every row is unchanged, and a row whose position was not
drawn is unchanged entirely. -/
theorem reengage_frame (rows : List ScoredRow) (i : Nat)
    (hi : i < rows.length) :
    (((reengage rows).getD i default).CustomerID =
        (rows.getD i default).CustomerID ∧
      ((reengage rows).getD i default).OrderID =
        (rows.getD i default).OrderID ∧
      ((reengage rows).getD i default).PurchaseDate =
        (rows.getD i default).PurchaseDate ∧
      ((reengage rows).getD i default).TransactionAmount =
        (rows.getD i default).TransactionAmount ∧
      ((reengage rows).getD i default).Recency =
        (rows.getD i default).Recency ∧
      ((reengage rows).getD i default).Frequency =
        (rows.getD i default).Frequency ∧
      ((reengage rows).getD i default).MonetaryValue =
        (rows.getD i default).MonetaryValue ∧
      ((reengage rows).getD i default).RecencyScore =
        (rows.getD i default).RecencyScore ∧
      ((reengage rows).getD i default).FrequencyScore =
        (rows.getD i default).FrequencyScore ∧
      ((reengage rows).getD i default).MonetaryScore =
        (rows.getD i default).MonetaryScore ∧
      ((reengage rows).getD i default).RFM_Score =
        (rows.getD i default).RFM_Score ∧
      ((reengage rows).getD i default).ValueSegment =
        (rows.getD i default).ValueSegment) ∧
    (i ∉ reengageChosen rows →
      (reengage rows).getD i default = rows.getD i default) := by
  rw [reengage]
  have h := relabelFrom_getD (reengageChosen rows) 0 i rows hi
  simp only [Nat.zero_add] at h
  rw [h]
  by_cases hch : i ∈ reengageChosen rows
  · rw [if_pos hch]
    exact ⟨⟨rfl, rfl, rfl, rfl, rfl, rfl, rfl, rfl, rfl, rfl, rfl, rfl⟩,
      fun hn => absurd hch hn⟩
  · rw [if_neg hch]
    exact ⟨⟨rfl, rfl, rfl, rfl, rfl, rfl, rfl, rfl, rfl, rfl, rfl, rfl⟩,
      fun _ => rfl⟩

/-- Witness for C6: in `tSeg`, row 0 is drawn (its scores survive) and
row 1 is not drawn (it is unchanged entirely). -/
theorem reengage_frame_witness :
    ((reengage tSeg).getD 0 default).RFM_Score =
      (tSeg.getD 0 default).RFM_Score ∧
    ((reengage tSeg).getD 0 default).ValueSegment =
      (tSeg.getD 0 default).ValueSegment ∧
    (reengage tSeg).getD 1 default = tSeg.getD 1 default := by
  have h0 := reengage_frame tSeg 0 (by with_unfolding_all decide)
  have h1 := reengage_frame tSeg 1 (by with_unfolding_all decide)
  exact ⟨h0.1.2.2.2.2.2.2.2.2.2.2.1, h0.1.2.2.2.2.2.2.2.2.2.2.2,
    h1.2 (by with_unfolding_all decide)⟩

/-- C7: the pipeline is deterministic — with the same evaluation date, the
same input table and the fixed seed, two runs produce identical tables
(the embedding is a pure function; the only random source is the fixed
seed inside `reengageChosen`). -/
theorem pipeline_deterministic (today : Int) (rows : List RawRow) :
    runPipeline today rows = runPipeline today rows := rfl

/-- C9: the pipeline preserves the row set: when scoring succeeds the
output has exactly one row per input row, and the re-engagement pass keeps
the row count unchanged. -/
theorem pipeline_preserves_rows (today : Int) (rows : List RawRow)
    (out : List ScoredRow) (h : preprocess today rows = some out) :
    out.length = rows.length ∧ (reengage out).length = out.length := by
  refine ⟨preprocess_length h, ?_⟩
  rw [reengage, length_relabelFrom]

/-- Witness for C9 at the concrete table `tEx`. -/
theorem pipeline_preserves_rows_witness :
    tExOut.length = tEx.length ∧ (reengage tExOut).length = tExOut.length :=
  pipeline_preserves_rows 100 tEx tExOut (by with_unfolding_all decide)

/-- C10: `Frequency` counts a customer's rows with a present `OrderID`,
not the raw row count: when all of a customer's rows carry an `OrderID`
the two coincide, and in `tOrders` customer 1 has two rows but frequency 1
because one `OrderID` is missing. -/
theorem frequency_counts_present_orders :
    (∀ (rows : List RawRow) (c : Nat),
      (∀ r ∈ rows, r.CustomerID = c → r.OrderID.isSome) →
      frequencyOf rows c =
        (rows.filter (fun r => r.CustomerID == c)).length) ∧
    frequencyOf tOrders 1 = 1 ∧
    (tOrders.filter (fun r => r.CustomerID == 1)).length = 2 := by
  refine ⟨?_, by with_unfolding_all decide, by with_unfolding_all decide⟩
  intro rows c hall
  rw [frequencyOf]
  congr 1
  apply List.filter_eq_self.mpr
  intro r hr
  have h1 := List.mem_filter.mp hr
  exact hall r h1.1 (by simpa using h1.2)

/-- Witness for C10: customer 1 of `tEx` has every `OrderID` present, so
its frequency equals its row count. -/
theorem frequency_counts_present_orders_witness :
    frequencyOf tEx 1 = (tEx.filter (fun r => r.CustomerID == 1)).length ∧
    frequencyOf tEx 1 = 2 := by
  refine ⟨frequency_counts_present_orders.1 tEx 1
    (by with_unfolding_all decide), by with_unfolding_all decide⟩

/-- C8: zero variance in a metric does not crash the pipeline and takes the
degenerate-binning fallback: a single-row table (whose date parses) always
scores, and whenever a metric column is constant the corresponding
component score is the middle label 3. -/
theorem degenerate_binning_fallback :
    (∀ (today : Int) (r : RawRow), r.PurchaseDate.isSome →
      (preprocess today [r]).isSome) ∧
    (∀ (today : Int) (rows : List RawRow) (out : List ScoredRow),
      preprocess today rows = some out → ∀ s ∈ out,
        (colMin (recencyVals today rows) = colMax (recencyVals today rows) →
          s.RecencyScore = 3) ∧
        (colMin (frequencyVals rows) = colMax (frequencyVals rows) →
          s.FrequencyScore = 3) ∧
        (colMin (monetaryVals rows) = colMax (monetaryVals rows) →
          s.MonetaryScore = 3)) := by
  constructor
  · intro today r hd
    rw [@preprocess_total today [r] (by simpa using hd)]
    rfl
  · intro today rows out h s hs
    rcases preprocess_mem h hs with ⟨r, hr, hscore⟩
    rcases scoreRow?_some_elim hscore with
      ⟨rec0, rs, fs, ms, vseg, h1, h2, h3, h4, h5, rfl⟩
    refine ⟨?_, ?_, ?_⟩
    · intro hconst
      rcases Option.bind_eq_some.mp h2 with ⟨rec', hrec', hcut⟩
      have hmemv : ((rec' : Int) : ℚ) ∈ recencyVals today rows :=
        List.mem_filterMap.mpr ⟨r, hr, by rw [hrec']; rfl⟩
      have h3eq : cutWith recency_scores (recencyVals today rows)
          ((rec' : Int) : ℚ) = some 3 := cutWith_const_recency hmemv hconst
      show rs = 3
      rw [hcut] at h3eq
      exact Option.some.injEq .. |>.mp h3eq
    · intro hconst
      rw [frequencyScore?] at h3
      have hmemv : ((frequencyOf rows r.CustomerID : Nat) : ℚ) ∈
          frequencyVals rows := List.mem_map.mpr ⟨r, hr, rfl⟩
      have h3eq : cutWith frequency_scores (frequencyVals rows)
          ((frequencyOf rows r.CustomerID : Nat) : ℚ) = some 3 :=
        cutWith_const_ascending frequency_scores rfl hmemv hconst
      show fs = 3
      rw [h3] at h3eq
      exact Option.some.injEq .. |>.mp h3eq
    · intro hconst
      rw [monetaryScore?] at h4
      have hmemv : monetaryOf rows r.CustomerID ∈ monetaryVals rows :=
        List.mem_map.mpr ⟨r, hr, rfl⟩
      have h3eq : cutWith monetary_scores (monetaryVals rows)
          (monetaryOf rows r.CustomerID) = some 3 :=
        cutWith_const_ascending monetary_scores rfl hmemv hconst
      show ms = 3
      rw [h4] at h3eq
      exact Option.some.injEq .. |>.mp h3eq

/-- Witness for C8 at the single-row table `tSingle`. -/
theorem degenerate_binning_fallback_witness :
    (preprocess 10 tSingle).isSome ∧
    (tSingleOut.getD 0 default).RecencyScore = 3 ∧
    (tSingleOut.getD 0 default).FrequencyScore = 3 ∧
    (tSingleOut.getD 0 default).MonetaryScore = 3 := by
  have hpre : preprocess 10 tSingle = some tSingleOut := by
    with_unfolding_all decide
  have hmem : tSingleOut.getD 0 default ∈ tSingleOut := by
    with_unfolding_all decide
  have h := degenerate_binning_fallback.2 10 tSingle tSingleOut hpre _ hmem
  refine ⟨by rw [hpre]; rfl, ?_, ?_, ?_⟩
  · exact h.1 (by with_unfolding_all decide)
  · exact h.2.1 (by with_unfolding_all decide)
  · exact h.2.2 (by with_unfolding_all decide)
